import Mathlib

/-!
Verification development for the collectd `rdtmon` plugin
(`src/rdtmon.c`).  The C source is shallowly embedded: C strings become
`List Char`, the `uint64_t` values of the parser become `Nat` clamped at
`2 ^ 64 - 1` exactly where the C library function `strtoull` clamps, and
the fixed-capacity tables become Lean lists tracking the live slots.
Every definition mirrors the corresponding C function and keeps its name.
-/

set_option maxRecDepth 8192

/-- Table capacity from the source: `RDTMON_MAX_SOCKETS * RDTMON_MAX_SOCKET_CORES`. -/
def RDTMON_MAX_CORES : Nat := 8 * 64

/-- Largest value of the C type `uint64_t`; `strtoull` clamps to it on overflow. -/
def UINT64_MAX : Nat := 2 ^ 64 - 1

/-- All 32 bits set: the value of `~0` on the 32-bit `int` used for event masks. -/
def UINT32_MASK : Nat := 2 ^ 32 - 1

/-- The C library error number `EINVAL`. -/
def EINVAL : Int := 22

/-- The C library error number `ENOMEM`. -/
def ENOMEM : Int := 12

/-- The C-locale `isspace` predicate used by the token scanner
(space, tab, newline, vertical tab, form feed, carriage return). -/
def isspaceChar (c : Char) : Bool :=
  c == ' ' || c == '\t' || c == '\n' || c == Char.ofNat 11 || c == Char.ofNat 12 || c == '\r'

/-- Numeric value of a hexadecimal digit character, `none` for non-digits. -/
def hexVal (c : Char) : Option Nat :=
  if 48 ≤ c.toNat && c.toNat ≤ 57 then some (c.toNat - 48)
  else if 97 ≤ c.toNat && c.toNat ≤ 102 then some (c.toNat - 87)
  else if 65 ≤ c.toNat && c.toNat ≤ 70 then some (c.toNat - 55)
  else none

/-- Value of `c` as a digit in the given base, `none` when `c` is no such digit. -/
def digitInBase (base : Nat) (c : Char) : Option Nat :=
  match hexVal c with
  | some v => if v < base then some v else none
  | none => none

/-- Consume the maximal run of digits of `base` from the front of the list,
accumulating the value; returns the value and the unconsumed remainder,
exactly like the digit loop inside `strtoull`. -/
def parseDigits (base : Nat) : List Char → Nat → Nat × List Char
  | [], acc => (acc, [])
  | c :: cs, acc =>
    match digitInBase base c with
    | some v => parseDigits base cs (acc * base + v)
    | none => (acc, c :: cs)

/-- Consume an optional `+` or `-` sign, reporting whether it was `-`. -/
def dropSign : List Char → Bool × List Char
  | '-' :: r => (true, r)
  | '+' :: r => (false, r)
  | s => (false, s)

/-- Final value computation of `strtoull`: clamp to `ULLONG_MAX` on overflow,
otherwise apply the unsigned negation demanded by a `-` sign. -/
def clamp64 (neg : Bool) (v : Nat) : Nat :=
  if UINT64_MAX < v then UINT64_MAX
  else if neg then (2 ^ 64 - v) % 2 ^ 64 else v

/-- Model of the C library call `strtoull(s, &endptr, 0)`: skip leading
whitespace, take an optional sign, detect the base (a `0x`/`0X` prefix
followed by a hex digit gives 16, a remaining leading `0` gives 8, else 10),
then consume the digit run.  Returns the converted value and the list of
unconsumed characters (the position of `endptr`); when no digit is
converted, `endptr` is the original start of the string. -/
def strtoull0 (s : List Char) : Nat × List Char :=
  let s1 := s.dropWhile isspaceChar
  let sg := dropSign s1
  let bp : Nat × List Char :=
    match sg.2 with
    | '0' :: c :: r =>
      if (c == 'x' || c == 'X') &&
          (match r with | d :: _ => (hexVal d).isSome | [] => false)
      then (16, r) else (8, '0' :: c :: r)
    | s2 => (10, s2)
  match bp.2 with
  | c :: cs =>
    if (digitInBase bp.1 c).isSome then
      let r := parseDigits bp.1 (c :: cs) 0
      (clamp64 sg.1 r.1, r.2)
    else (0, s)
  | [] => (0, s)

/-- Embedding of `strtouint64` (rdtmon.c:65): the conversion succeeds iff the
input is non-empty and `strtoull` consumed it entirely. -/
def strtouint64 (s : List Char) : Option Nat :=
  let r := strtoull0 s
  if s ≠ [] ∧ r.2 = [] then some r.1 else none

/-- Embedding of `isdup` (rdtmon.c:58): is `val` already among the first
collected numbers? -/
def isdup (nums : List Nat) (val : Nat) : Bool :=
  nums.any (fun x => x == val)

/-- Append `val` unless it is a duplicate — the insertion step shared by the
range branch and the single-value branch of `strlisttonums`. -/
def insertVal (acc : List Nat) (val : Nat) : List Nat :=
  if isdup acc val then acc else acc ++ [val]

/-- The inner enumeration loop of the range branch of `strlisttonums`:
insert `fuel` consecutive values starting at `n`, returning `true` when the
`index >= max` early return fired. -/
def fillRange : Nat → Nat → List Nat → Nat → List Nat × Bool
  | 0, _, acc, _ => (acc, false)
  | fuel + 1, n, acc, max =>
    let acc2 := insertVal acc n
    if max ≤ acc2.length then (acc2, true)
    else fillRange fuel (n + 1) acc2 max

/-- Enumerate the inclusive range `start..endv` as the C `for` loop does.
When `endv` is `UINT64_MAX` the loop counter `n` (a `uint64_t`) can never
exceed `endv`, so after the last value it wraps to `0` and keeps inserting
until the capacity return fires; the second `fillRange` pass models that
wrapped continuation. -/
def enumRange (start endv : Nat) (acc : List Nat) (max : Nat) : List Nat × Bool :=
  if endv = UINT64_MAX then
    match fillRange (endv + 1 - start) start acc max with
    | (acc2, true) => (acc2, true)
    | (acc2, false) => fillRange (UINT64_MAX + 1) 0 acc2 max
  else
    fillRange (endv + 1 - start) start acc max

/-- Model of `strchr(token, '-')` followed by splitting at that character:
the pieces before and after the first `-`, or `none` when there is none. -/
def splitDash : List Char → Option (List Char × List Char)
  | [] => none
  | c :: cs =>
    if c == '-' then some ([], cs)
    else (splitDash cs).map (fun p => (c :: p.1, p.2))

/-- Outcome of processing one comma-separated token of `strlisttonums`:
the token was empty and skipped, the parse failed (the `return (0)` paths),
or values were collected with a flag recording the `index >= max` return. -/
inductive tokRes : Type
  | skip : tokRes
  | perr : tokRes
  | vals : List Nat → Bool → tokRes
deriving DecidableEq

/-- Process one token of `strlisttonums` (rdtmon.c:110-161): skip leading
whitespace, skip an empty token, split at the first `-` into a two-sided
range (swapping a descending range) or convert a single value. -/
def procToken (t : List Char) (acc : List Nat) (max : Nat) : tokRes :=
  let tok := t.dropWhile isspaceChar
  if tok = [] then .skip
  else
    match splitDash tok with
    | some (l, r) =>
      match strtouint64 l, strtouint64 r with
      | some a, some b =>
        let s := if b < a then b else a
        let e := if b < a then a else b
        match enumRange s e acc max with
        | (acc2, full) => .vals acc2 full
      | some _, none => .perr
      | none, _ => .perr
    | none =>
      match strtouint64 tok with
      | some v =>
        let acc2 := insertVal acc v
        .vals acc2 (max ≤ acc2.length)
      | none => .perr

/-- How a run of `strlisttonums` ended: all tokens consumed, a parse error
(`return (0)`), or the capacity early return (`return index`). -/
inductive pstatus : Type
  | ok : pstatus
  | fail : pstatus
  | full : pstatus
deriving DecidableEq

/-- The token loop of `strlisttonums`: fold `procToken` over the
comma-separated tokens, stopping at a parse error (result emptied) or at the
capacity return (partial result kept). -/
def strlistGo : List (List Char) → List Nat → Nat → List Nat × pstatus
  | [], acc, _ => (acc, .ok)
  | t :: ts, acc, max =>
    match procToken t acc max with
    | .skip => strlistGo ts acc max
    | .perr => ([], .fail)
    | .vals acc2 true => (acc2, .full)
    | .vals acc2 false => strlistGo ts acc2 max

/-- Split a character list at every comma, keeping empty pieces; the empty
pieces are skipped by `procToken` exactly as `strtok_r` never yields them. -/
def splitComma : List Char → List (List Char)
  | [] => [[]]
  | c :: cs =>
    if c == ',' then [] :: splitComma cs
    else
      match splitComma cs with
      | t :: ts => (c :: t) :: ts
      | [] => [[c]]

/-- Embedding of `strlisttonums` (rdtmon.c:102): the sequence of numbers the
call reports (the array prefix of length equal to the returned count).
A zero capacity returns nothing at once, as the early guard does. -/
def strlisttonums (s : List Char) (max : Nat) : List Nat :=
  if max = 0 then [] else (strlistGo (splitComma s) [] max).1

/-- A token on which `strlisttonums` takes one of its `return (0)` paths:
non-empty after whitespace skipping, and not a valid single integer nor a
valid two-sided range. -/
def tokenBad (t : List Char) : Bool :=
  let tok := t.dropWhile isspaceChar
  decide (tok ≠ []) &&
    (match splitDash tok with
     | some (l, r) => (strtouint64 l).isNone || (strtouint64 r).isNone
     | none => (strtouint64 tok).isNone)

/-- Embedding of `struct rdtmon_core_group_s` (rdtmon.c:38): description,
core list (its length plays the role of `num_cores`) and event mask. -/
structure rdtmon_core_group : Type where
  desc : List Char
  cores : List Nat
  events : Nat
deriving DecidableEq

/-- The pair-counting loop of `cgroup_cmp`: the number of index pairs
`(i, j)` with `tab_a[i] = tab_b[j]`. -/
def countMatches (a b : List Nat) : Nat :=
  (a.map (fun x => b.count x)).sum

/-- Core of `cgroup_cmp` (rdtmon.c:183) on the two core lists: `0` when no
cores match, `1` when the groups have the same size all matched, `-1`
otherwise. -/
def cores_cmp (a b : List Nat) : Int :=
  let found := countMatches a b
  if found = 0 then 0
  else if a.length = b.length ∧ b.length = found then 1
  else -1

/-- Embedding of `cgroup_cmp` (rdtmon.c:183): it reads only the core tables
and their sizes. -/
def cgroup_cmp (cg_a cg_b : rdtmon_core_group) : Int :=
  cores_cmp cg_a.cores cg_b.cores

/-- Embedding of `cgroup_set` (rdtmon.c:210) on a zero-initialized slot: the
description pointer is taken over, the cores are copied with the
`(unsigned)` cast truncating each `uint64_t` value, and `events` stays 0. -/
def cgroup_set (desc : List Char) (cores : List Nat) : rdtmon_core_group :=
  { desc := desc, cores := cores.map (fun c => c % 2 ^ 32), events := 0 }

/-- Monitoring event bit from the external `pqos.h` header: LLC occupancy. -/
def PQOS_MON_EVENT_L3_OCCUP : Nat := 1

/-- Monitoring event bit from the external `pqos.h` header: local memory
bandwidth. -/
def PQOS_MON_EVENT_LMEM_BW : Nat := 2

/-- Monitoring event bit from the external `pqos.h` header: total memory
bandwidth. -/
def PQOS_MON_EVENT_TMEM_BW : Nat := 4

/-- Monitoring event bit from the external `pqos.h` header: remote memory
bandwidth. -/
def PQOS_MON_EVENT_RMEM_BW : Nat := 8

/-- Monitoring event bit from the external `pqos.h` header: the LLC-miss
sampling event that `rdtmon_config_cgroups` always clears. -/
def PQOS_PERF_EVENT_LLC_MISS : Nat := 2 ^ 14

/-- Monitoring event bit from the external `pqos.h` header: instructions
per cycle. -/
def PQOS_PERF_EVENT_IPC : Nat := 2 ^ 15

/-- The `mbm_events` mask of `rdtmon_read` (rdtmon.c:620). -/
def mbm_events : Nat :=
  PQOS_MON_EVENT_LMEM_BW ||| PQOS_MON_EVENT_TMEM_BW ||| PQOS_MON_EVENT_RMEM_BW

/-- The event-mask computation of `rdtmon_config_cgroups` (rdtmon.c:432-435):
the union of every advertised event type, with the LLC-miss bit cleared by
`events &= ~(PQOS_PERF_EVENT_LLC_MISS)` on the 32-bit `int`. -/
def computeEvents (advertised : List Nat) : Nat :=
  (advertised.foldl (fun a b => a ||| b) 0) &&& (UINT32_MASK ^^^ PQOS_PERF_EVENT_LLC_MISS)

/-- The validation-and-binding loop of `rdtmon_config_cgroups`
(rdtmon.c:440-459): each group in `rest` is compared against every already
accepted group in `checked`; any non-zero comparison frees every group
(`rdtmon_free_cgroups`, leaving no live slot) and returns `-EINVAL`,
otherwise the group receives the uniform event mask and is accepted.
Memory allocation for the monitoring data cannot fail in the model. -/
def validateFrom (checked rest : List rdtmon_core_group) (events : Nat) :
    List rdtmon_core_group × Int :=
  match rest with
  | [] => (checked, 0)
  | g :: gs =>
    if checked.any (fun p => decide (cgroup_cmp p g ≠ 0)) then ([], -EINVAL)
    else validateFrom (checked ++ [{ g with events := events }]) gs events

/-- The overlap validation and event-mask assignment stage of
`rdtmon_config_cgroups` (rdtmon.c:439-461), taking the groups built from the
configuration and the computed event mask; returns the live group table and
the function result (`0` or `-EINVAL`). -/
def rdtmon_config_cgroups (groups : List rdtmon_core_group) (events : Nat) :
    List rdtmon_core_group × Int :=
  validateFrom [] groups events

/-- Some group of the list compares non-zero against some group placed
before it, with the earlier groups accumulated in `prev` — the situation in
which the validation loop of `rdtmon_config_cgroups` fails. -/
def conflictsPrev : List (List Nat) → List (List Nat) → Prop
  | _, [] => False
  | prev, c :: cs => (∃ p ∈ prev, cores_cmp p c ≠ 0) ∨ conflictsPrev (prev ++ [c]) cs

/-- One entry of the `pqos_cpuinfo` core table of the external capability
provider: the logical core identifier. -/
structure pqos_coreinfo : Type where
  lcore : Nat
deriving DecidableEq

/-- The platform topology reported by the external capability provider: the
ordered core table (`num_cores` is its length). -/
structure pqos_cpuinfo : Type where
  cores : List pqos_coreinfo
deriving DecidableEq

/-- The decimal digit character for a value below 10. -/
def decDigit (d : Nat) : Char := Char.ofNat (48 + d)

/-- Digit-emission loop for decimal rendering, with structural fuel. -/
def natDecAux : Nat → Nat → List Char → List Char
  | 0, _, acc => acc
  | fuel + 1, n, acc =>
    let acc2 := decDigit (n % 10) :: acc
    if n < 10 then acc2 else natDecAux fuel (n / 10) acc2

/-- Decimal rendering of a natural number, as `printf` renders a
non-negative value. -/
def natDec (n : Nat) : List Char := natDecAux (n + 1) n []

/-- Rendering of an `unsigned` value through the `%d` conversion used by
`ssnprintf_alloc("%d", ...)`: values with the top bit set print as the
negative reinterpretation. -/
def fmt_d (n : Nat) : List Char :=
  if n < 2 ^ 31 then natDec n else '-' :: natDec (2 ^ 32 - n)

/-- The loop of `rdtmon_default_cgroups` (rdtmon.c:373-387) from loop index
`i`: each topology entry yields one group whose description renders the
entry's `lcore` and whose core list holds the loop index `i` itself
(`uint64_t core = i`). -/
def defaultGroupsFrom : Nat → List pqos_coreinfo → List rdtmon_core_group
  | _, [] => []
  | i, c :: cs => cgroup_set (fmt_d c.lcore) [i] :: defaultGroupsFrom (i + 1) cs

/-- Embedding of `rdtmon_default_cgroups` (rdtmon.c:369): the default groups
generated when the explicit configuration produced none. -/
def rdtmon_default_cgroups (cpu : pqos_cpuinfo) : List rdtmon_core_group :=
  defaultGroupsFrom 0 cpu.cores

/-- Embedding of `struct pqos_event_values` of the external provider: the
sample of one monitoring context, in the provider's native units. -/
structure pqos_event_values : Type where
  llc : Nat
  ipc : Nat
  mbm_local : Nat
  mbm_remote : Nat
  mbm_total : Nat
  mbm_local_delta : Nat
  mbm_remote_delta : Nat
  mbm_total_delta : Nat
deriving DecidableEq

/-- One metric record handed to `plugin_dispatch_values`: the bracketed
plugin instance, the type tag and the numeric values. -/
structure value_list : Type where
  plugin_instance : List Char
  vtype : List Char
  values : List Nat
deriving DecidableEq

/-- The `llc` type tag. -/
def llc_tag : List Char := ['l', 'l', 'c']

/-- The `ipc` type tag. -/
def ipc_tag : List Char := ['i', 'p', 'c']

/-- The `mbm` type tag. -/
def mbm_tag : List Char := ['m', 'b', 'm']

/-- Embedding of `rdtmon_submit_gauge` (rdtmon.c:561): one value, instance
formatted as the bracket-wrapped group description. -/
def rdtmon_submit_gauge (cgroup : List Char) (t : List Char) (v : Nat) : value_list :=
  { plugin_instance := '[' :: cgroup ++ [']'], vtype := t, values := [v] }

/-- Embedding of `rdtmon_submit_mbm` (rdtmon.c:578): the six memory
bandwidth values of one group. -/
def rdtmon_submit_mbm (cgroup : List Char) (pv : pqos_event_values) : value_list :=
  { plugin_instance := '[' :: cgroup ++ [']'], vtype := mbm_tag,
    values := [pv.mbm_local, pv.mbm_remote, pv.mbm_total,
               pv.mbm_local_delta, pv.mbm_remote_delta, pv.mbm_total_delta] }

/-- The per-group emission step of the loop of `rdtmon_read`
(rdtmon.c:619-636): each metric is submitted only when its event bit is set
in the group's mask. -/
def emitGroup (g : rdtmon_core_group) (pv : pqos_event_values) : List value_list :=
  (if g.events &&& PQOS_MON_EVENT_L3_OCCUP ≠ 0
   then [rdtmon_submit_gauge g.desc llc_tag pv.llc] else []) ++
  (if g.events &&& PQOS_PERF_EVENT_IPC ≠ 0
   then [rdtmon_submit_gauge g.desc ipc_tag pv.ipc] else []) ++
  (if g.events &&& mbm_events ≠ 0
   then [rdtmon_submit_mbm g.desc pv] else [])

/-- Embedding of `struct rdtmon_ctx_s` (rdtmon.c:46): the live prefix of the
group table (`num_groups` is its length); the provider pointers live in the
external provider model. -/
structure rdtmon_ctx : Type where
  cgroups : List rdtmon_core_group
deriving DecidableEq

/-- Observable outcome of one `rdtmon_read` call: the returned status, the
metric records dispatched during the call, and whether `pqos_mon_poll` was
invoked at all. -/
structure read_result : Type where
  ret : Int
  emitted : List value_list
  polled : Bool
deriving DecidableEq

/-- Embedding of `rdtmon_read` (rdtmon.c:601): `g` is the global context
(`none` when the plugin is uninitialized) and `pollRes` the outcome of the
single bulk `pqos_mon_poll` call — `none` for failure, or the refreshed
sample of every live context.  A missing context returns `-EINVAL` without
polling; a poll failure returns `-1` emitting nothing; on success every
group's gated metrics are emitted in table order. -/
def rdtmon_read (g : Option rdtmon_ctx) (pollRes : Option (List pqos_event_values)) :
    read_result :=
  match g with
  | none => { ret := -EINVAL, emitted := [], polled := false }
  | some ctx =>
    match pollRes with
    | none => { ret := -1, emitted := [], polled := true }
    | some vals =>
      { ret := 0,
        emitted := ((ctx.cgroups.zip vals).map (fun p => emitGroup p.1 p.2)).flatten,
        polled := true }

/-- The monitoring capability record the provider returns through
`pqos_cap_get_type`: the advertised event types. -/
structure pqos_capability_mon : Type where
  events : List Nat
deriving DecidableEq

/-- Behaviour of the external PQoS provider during `rdtmon_preinit`: whether
`pqos_init` succeeds, whether `pqos_cap_get` succeeds, whether
`pqos_cap_get_type` reports `PQOS_RETVAL_PARAM`, and the monitoring
capability it yields (possibly absent). -/
structure pqos_provider : Type where
  init_ok : Bool
  cap_get_ok : Bool
  cap_get_type_param : Bool
  cap_mon : Option pqos_capability_mon
deriving DecidableEq

/-- Observable outcome of one `rdtmon_preinit` call: the global context
afterwards, the returned status, and whether the provider initialization
sequence (`pqos_fini`/`pqos_init`/capability queries) was invoked. -/
structure preinit_result : Type where
  ctx : Option rdtmon_ctx
  ret : Int
  provider_inited : Bool
deriving DecidableEq

/-- Embedding of `rdtmon_preinit` (rdtmon.c:464): with an existing context
it returns success immediately and untouched; otherwise it allocates a
zeroed context and runs the provider initialization sequence, freeing the
context again (`sfree` also nulls the global) on any failure. -/
def rdtmon_preinit (g : Option rdtmon_ctx) (prov : pqos_provider) : preinit_result :=
  match g with
  | some ctx => { ctx := some ctx, ret := 0, provider_inited := false }
  | none =>
    if ¬ prov.init_ok then { ctx := none, ret := -1, provider_inited := true }
    else if ¬ prov.cap_get_ok then { ctx := none, ret := -1, provider_inited := true }
    else if prov.cap_get_type_param then { ctx := none, ret := -1, provider_inited := true }
    else
      match prov.cap_mon with
      | none => { ctx := none, ret := -1, provider_inited := true }
      | some _ => { ctx := some { cgroups := [] }, ret := 0, provider_inited := true }

/-- Members of the table produced by the validation loop all carry the event
mask that was passed in, provided the groups already accepted do. -/
theorem validateFrom_events_mem :
    ∀ (rest checked : List rdtmon_core_group) (ev : Nat),
      (∀ g ∈ checked, g.events = ev) →
      ∀ g ∈ (validateFrom checked rest ev).1, g.events = ev := by
  intro rest
  induction rest with
  | nil => intro checked ev h g hg; exact h g hg
  | cons x xs ih =>
    intro checked ev h g hg
    rw [validateFrom] at hg
    split at hg
    · simp at hg
    · refine ih _ ev ?_ g hg
      intro q hq
      rcases List.mem_append.mp hq with h1 | h2
      · exact h q h1
      · rw [List.mem_singleton] at h2
        subst h2
        rfl

/-- The computed event mask never contains the LLC-miss bit. -/
theorem computeEvents_land_llc :
    ∀ adv : List Nat, computeEvents adv &&& PQOS_PERF_EVENT_LLC_MISS = 0 := by
  intro adv
  unfold computeEvents
  rw [Nat.land_assoc]
  have h : (UINT32_MASK ^^^ PQOS_PERF_EVENT_LLC_MISS) &&& PQOS_PERF_EVENT_LLC_MISS = 0 := by
    decide
  rw [h]
  exact Nat.and_zero _

/-- C3: every group of the live table receives the same event mask — the
union of all advertised event kinds with the LLC-miss bit cleared — and that
mask never contains the LLC-miss bit, however the provider advertises. -/
theorem event_mask_uniform_no_llc_miss :
    ∀ (advertised : List Nat) (groups out : List rdtmon_core_group) (r : Int),
      rdtmon_config_cgroups groups (computeEvents advertised) = (out, r) →
      ∀ g ∈ out,
        g.events = computeEvents advertised ∧
        g.events &&& PQOS_PERF_EVENT_LLC_MISS = 0 := by
  intro adv groups out r h g hg
  have hmem := validateFrom_events_mem groups [] (computeEvents adv)
    (by intro q hq; simp at hq)
  rw [rdtmon_config_cgroups] at h
  rw [h] at hmem
  have he := hmem g hg
  exact ⟨he, by rw [he]; exact computeEvents_land_llc adv⟩

/-- Witness for C3 on a provider advertising occupancy, local bandwidth and
the LLC-miss event, with one singleton group. -/
theorem event_mask_uniform_no_llc_miss_w :
    ({ desc := ['0'], cores := [0], events := 3 } : rdtmon_core_group).events =
        computeEvents [1, 2, 2 ^ 14] ∧
      ({ desc := ['0'], cores := [0], events := 3 } : rdtmon_core_group).events &&&
          PQOS_PERF_EVENT_LLC_MISS = 0 :=
  event_mask_uniform_no_llc_miss [1, 2, 2 ^ 14]
    [{ desc := ['0'], cores := [0], events := 0 }]
    [{ desc := ['0'], cores := [0], events := 3 }] 0 (by decide)
    { desc := ['0'], cores := [0], events := 3 } (by decide)

/-- C2 counterexample: on the expression of the claim the parser yields
`[1,3,5,6,7,8,10,12,13,14,15,16]` — the `0x10-12` token is the range from
hex 16 down to decimal 12, swapped and enumerated upward — and not the
claimed `[1,3,5,6,7,8,10,16,17,18]`. -/
theorem strlisttonums_example_cex :
    strlisttonums ("1,3,5-8,10,0x10-12".toList) RDTMON_MAX_CORES =
        [1, 3, 5, 6, 7, 8, 10, 12, 13, 14, 15, 16] ∧
      strlisttonums ("1,3,5-8,10,0x10-12".toList) RDTMON_MAX_CORES ≠
        [1, 3, 5, 6, 7, 8, 10, 16, 17, 18] := by
  decide

/-- C2 amended: parsing `"1,3,5-8,10,0x10-12"` produces exactly
`[1,3,5,6,7,8,10,12,13,14,15,16]`, in that order: the end of a range does
not inherit the hex base of its start, so `0x10-12` is the descending range
16..12, swapped to 12..16. -/
theorem strlisttonums_example_amended :
    strlisttonums ("1,3,5-8,10,0x10-12".toList) RDTMON_MAX_CORES =
      [1, 3, 5, 6, 7, 8, 10, 12, 13, 14, 15, 16] := by
  decide

/-- The default-group loop keeps the topology's length. -/
theorem defaultGroupsFrom_length :
    ∀ (cs : List pqos_coreinfo) (k : Nat), (defaultGroupsFrom k cs).length = cs.length := by
  intro cs
  induction cs with
  | nil => intro k; rfl
  | cons c cst ih => intro k; simp [defaultGroupsFrom, ih]

/-- Entry `j` of the default-group loop started at index `k` is built from
topology entry `j` with core value `k + j`. -/
theorem defaultGroupsFrom_getElem :
    ∀ (cs : List pqos_coreinfo) (k j : Nat) (ci : pqos_coreinfo),
      cs[j]? = some ci →
      (defaultGroupsFrom k cs)[j]? = some (cgroup_set (fmt_d ci.lcore) [k + j]) := by
  intro cs
  induction cs with
  | nil => intro k j ci h; simp at h
  | cons c cst ih =>
    intro k j ci h
    cases j with
    | zero =>
      simp only [List.getElem?_cons_zero, Option.some.injEq] at h
      subst h
      simp [defaultGroupsFrom]
    | succ jj =>
      have hh : cst[jj]? = some ci := by simpa using h
      have := ih (k + 1) jj ci hh
      simp only [defaultGroupsFrom, List.getElem?_cons_succ]
      rw [this]
      have harith : k + 1 + jj = k + (jj + 1) := by omega
      rw [harith]

/-- C4 counterexample: on a one-core topology whose logical core identifier
is 7, the default group's core set is the singleton of the loop index 0, not
of the logical identifier 7 used for the description. -/
theorem default_cgroups_cex :
    rdtmon_default_cgroups { cores := [{ lcore := 7 }] } =
        [{ desc := ['7'], cores := [0], events := 0 }] ∧
      ({ desc := ['7'], cores := [0], events := 0 } : rdtmon_core_group).cores ≠ [7] := by
  decide

/-- C4 amended: default-group generation creates one group per topology
entry in ascending index order; the group at position `i` has core set equal
to the singleton of the position `i` itself (not of the logical identifier),
while its description renders the entry's logical identifier in decimal. -/
theorem default_cgroups_amended :
    ∀ (cpu : pqos_cpuinfo) (i : Nat) (ci : pqos_coreinfo),
      i < 2 ^ 32 → cpu.cores[i]? = some ci →
      (rdtmon_default_cgroups cpu).length = cpu.cores.length ∧
      (rdtmon_default_cgroups cpu)[i]? =
        some { desc := fmt_d ci.lcore, cores := [i], events := 0 } := by
  intro cpu i ci hlt h
  constructor
  · exact defaultGroupsFrom_length cpu.cores 0
  · have hg := defaultGroupsFrom_getElem cpu.cores 0 i ci h
    rw [rdtmon_default_cgroups, hg]
    simp [cgroup_set]
    omega

/-- Witness for C4 amended on the spec's 4-core platform with logical
identifiers equal to their indices. -/
theorem default_cgroups_amended_w :
    (rdtmon_default_cgroups
        { cores := [{ lcore := 0 }, { lcore := 1 }, { lcore := 2 }, { lcore := 3 }] }).length =
      ({ cores := [{ lcore := 0 }, { lcore := 1 }, { lcore := 2 }, { lcore := 3 }] :
          pqos_cpuinfo }).cores.length ∧
    (rdtmon_default_cgroups
        { cores := [{ lcore := 0 }, { lcore := 1 }, { lcore := 2 }, { lcore := 3 }] })[2]? =
      some { desc := fmt_d 2, cores := [2], events := 0 } :=
  default_cgroups_amended
    { cores := [{ lcore := 0 }, { lcore := 1 }, { lcore := 2 }, { lcore := 3 }] } 2
    { lcore := 2 } (by decide) (by decide)

/-- C5: with a live context, a failed bulk poll returns `-1` and emits no
metric record, and any call that emitted a record had a successful poll. -/
theorem rdtmon_read_all_or_nothing :
    ∀ (ctx : rdtmon_ctx) (res : Option (List pqos_event_values)),
      rdtmon_read (some ctx) none = { ret := -1, emitted := [], polled := true } ∧
      ((rdtmon_read (some ctx) res).emitted ≠ [] → ∃ vals, res = some vals) := by
  intro ctx res
  refine ⟨rfl, ?_⟩
  intro h
  cases res with
  | none => exact absurd rfl h
  | some vals => exact ⟨vals, rfl⟩

/-- Witness for C5: a one-group context with the occupancy bit set and a
successful poll reporting 2097152 bytes emits a record, so the poll indeed
succeeded. -/
theorem rdtmon_read_all_or_nothing_w :
    ∃ vals,
      (some [({ llc := 2097152, ipc := 0, mbm_local := 0, mbm_remote := 0, mbm_total := 0,
                mbm_local_delta := 0, mbm_remote_delta := 0, mbm_total_delta := 0 } :
          pqos_event_values)] :
        Option (List pqos_event_values)) = some vals :=
  (rdtmon_read_all_or_nothing { cgroups := [{ desc := ['0'], cores := [0], events := 1 }] }
      (some [{ llc := 2097152, ipc := 0, mbm_local := 0, mbm_remote := 0, mbm_total := 0,
               mbm_local_delta := 0, mbm_remote_delta := 0, mbm_total_delta := 0 }])).2
    (by decide)

/-- C10: a poll entry-point call with no initialized context returns
`-EINVAL`, emits nothing and never invokes the provider's bulk poll. -/
theorem rdtmon_read_uninitialized :
    ∀ pollRes : Option (List pqos_event_values),
      rdtmon_read none pollRes = { ret := -EINVAL, emitted := [], polled := false } := by
  intro pollRes
  rfl

/-- C9: a pre-initialization call on an existing context succeeds at once
without touching the provider or the state; consequently a second call after
any successful one returns the same context, so the configuration and init
callbacks converge in either order. -/
theorem rdtmon_preinit_idempotent :
    ∀ (ctx : rdtmon_ctx) (prov : pqos_provider),
      rdtmon_preinit (some ctx) prov =
          { ctx := some ctx, ret := 0, provider_inited := false } ∧
      (∀ (g : Option rdtmon_ctx) (r : preinit_result),
        rdtmon_preinit g prov = r → r.ret = 0 →
        rdtmon_preinit r.ctx prov = { ctx := r.ctx, ret := 0, provider_inited := false }) := by
  intro ctx prov
  refine ⟨rfl, ?_⟩
  intro g r hr h0
  subst hr
  cases g with
  | some c => rfl
  | none =>
    obtain ⟨i, cg, ctp, cm⟩ := prov
    cases i <;> cases cg <;> cases ctp <;> cases cm <;> simp_all [rdtmon_preinit]

/-- Witness for C9: after a successful fresh pre-initialization, a second
call is a no-op success on the same context. -/
theorem rdtmon_preinit_idempotent_w :
    rdtmon_preinit (some { cgroups := [] })
        { init_ok := true, cap_get_ok := true, cap_get_type_param := false,
          cap_mon := some { events := [1] } } =
      { ctx := some { cgroups := [] }, ret := 0, provider_inited := false } :=
  (rdtmon_preinit_idempotent { cgroups := [] }
      { init_ok := true, cap_get_ok := true, cap_get_type_param := false,
        cap_mon := some { events := [1] } }).2
    none { ctx := some { cgroups := [] }, ret := 0, provider_inited := true }
    (by decide) (by decide)

/-- When some group of `rest` compares non-zero against an earlier group
(the accepted ones in `checked` or a preceding one of `rest`), the
validation loop frees everything and returns `-EINVAL`. -/
theorem validateFrom_of_conflict :
    ∀ (rest checked : List rdtmon_core_group) (events : Nat),
      conflictsPrev (checked.map rdtmon_core_group.cores)
        (rest.map rdtmon_core_group.cores) →
      validateFrom checked rest events = ([], -EINVAL) := by
  intro rest
  induction rest with
  | nil => intro checked ev h; exact absurd h (by simp [conflictsPrev])
  | cons g gs ih =>
    intro checked ev h
    rw [validateFrom]
    by_cases hany : checked.any (fun p => decide (cgroup_cmp p g ≠ 0))
    · rw [if_pos hany]
    · rw [if_neg hany]
      simp only [List.map_cons, conflictsPrev] at h
      rcases h with hl | hr
      · obtain ⟨p, hp, hne⟩ := hl
        obtain ⟨q, hq, hqc⟩ := List.mem_map.mp hp
        refine absurd ?_ hany
        refine List.any_eq_true.mpr ⟨q, hq, ?_⟩
        simp only [decide_eq_true_eq, cgroup_cmp]
        rw [hqc]
        exact hne
      · refine ih (checked ++ [{ g with events := ev }]) ev ?_
        have hmap : (checked ++ [{ g with events := ev }]).map rdtmon_core_group.cores =
            checked.map rdtmon_core_group.cores ++ [g.cores] := by
          simp
        rw [hmap]
        exact hr

/-- A non-zero comparison between position `j` of `rest` and any group
placed before it establishes `conflictsPrev`. -/
theorem conflictsPrev_of_pair :
    ∀ (rest prev : List (List Nat)) (j : Nat) (hj : j < rest.length) (p : List Nat),
      p ∈ prev ++ rest.take j → cores_cmp p (rest.get ⟨j, hj⟩) ≠ 0 →
      conflictsPrev prev rest := by
  intro rest
  induction rest with
  | nil => intro prev j hj; exact absurd hj (by simp)
  | cons c cs ih =>
    intro prev j hj p hp hne
    simp only [conflictsPrev]
    cases j with
    | zero =>
      simp only [List.take_zero, List.append_nil] at hp
      exact Or.inl ⟨p, hp, by simpa using hne⟩
    | succ jj =>
      have hj2 : jj < cs.length := by simpa using hj
      refine Or.inr (ih (prev ++ [c]) jj hj2 p ?_ ?_)
      · have : prev ++ (c :: cs).take (jj + 1) = (prev ++ [c]) ++ cs.take jj := by
          simp
        rw [this] at hp
        exact hp
      · simpa using hne

/-- C1: whenever any two groups of the configuration, in order of addition,
compare as Identical (1) or PartialOverlap (-1), configuration application
returns `-EINVAL` and the live group table is left empty — no group of the
configuration survives. -/
theorem rdtmon_config_overlap_rejects_all :
    ∀ (groups : List rdtmon_core_group) (events : Nat),
      (∃ i, ∃ j, ∃ hi : i < groups.length, ∃ hj : j < groups.length, i < j ∧
        (cgroup_cmp (groups.get ⟨i, hi⟩) (groups.get ⟨j, hj⟩) = 1 ∨
         cgroup_cmp (groups.get ⟨i, hi⟩) (groups.get ⟨j, hj⟩) = -1)) →
      rdtmon_config_cgroups groups events = ([], -EINVAL) := by
  intro groups ev h
  obtain ⟨i, j, hi, hj, hij, hcmp⟩ := h
  rw [rdtmon_config_cgroups]
  have hmain := validateFrom_of_conflict groups [] ev
  simp only [List.map_nil] at hmain
  apply hmain
  have hj2 : j < (groups.map rdtmon_core_group.cores).length := by simpa using hj
  have hgetj : (groups.map rdtmon_core_group.cores).get ⟨j, hj2⟩ =
      (groups.get ⟨j, hj⟩).cores := by
    simp
  have hmem : (groups.get ⟨i, hi⟩).cores ∈
      [] ++ (groups.map rdtmon_core_group.cores).take j := by
    rw [List.nil_append]
    have h1 : ((groups.map rdtmon_core_group.cores).take j)[i]? =
        (groups.map rdtmon_core_group.cores)[i]? :=
      List.getElem?_take_of_lt hij
    have h2 : (groups.map rdtmon_core_group.cores)[i]? =
        some ((groups.get ⟨i, hi⟩).cores) := by
      simp [List.getElem?_eq_getElem, hi]
    exact List.getElem?_mem (h1.trans h2)
  refine conflictsPrev_of_pair (groups.map rdtmon_core_group.cores) [] j hj2
    ((groups.get ⟨i, hi⟩).cores) hmem ?_
  rw [hgetj]
  show cgroup_cmp (groups.get ⟨i, hi⟩) (groups.get ⟨j, hj⟩) ≠ 0
  rcases hcmp with h1 | h1 <;> rw [h1] <;> decide

/-- Witness for C1: the spec's overlapping pair of groups, cores 0-1 and
1-2, is rejected with an empty table. -/
theorem rdtmon_config_overlap_rejects_all_w :
    rdtmon_config_cgroups
        [{ desc := ['a'], cores := [0, 1], events := 0 },
         { desc := ['b'], cores := [1, 2], events := 0 }] 3 = ([], -EINVAL) :=
  rdtmon_config_overlap_rejects_all
    [{ desc := ['a'], cores := [0, 1], events := 0 },
     { desc := ['b'], cores := [1, 2], events := 0 }] 3
    ⟨0, 1, by decide, by decide, by decide, Or.inr (by decide)⟩

/-- Against a duplicate-free right-hand group, the pair count of
`cgroup_cmp` is the number of left-hand cores found in the right-hand
group. -/
theorem countMatches_nodup :
    ∀ (a b : List Nat), b.Nodup →
      countMatches a b = (a.filter (fun x => decide (x ∈ b))).length := by
  intro a b hb
  induction a with
  | nil => rfl
  | cons x xs ih =>
    simp only [countMatches, List.map_cons, List.sum_cons, List.filter_cons] at *
    by_cases hx : x ∈ b
    · rw [List.count_eq_one_of_mem hb hx]
      simp [hx, ih]
      omega
    · rw [List.count_eq_zero.mpr hx]
      simp [hx, ih]

/-- Unfolding of `cores_cmp` into its three-way branch. -/
theorem cores_cmp_eq (a b : List Nat) :
    cores_cmp a b =
      if countMatches a b = 0 then 0
      else if a.length = b.length ∧ b.length = countMatches a b then 1
      else -1 := rfl

/-- The tri-state classification of `cores_cmp` on non-empty duplicate-free
core lists. -/
theorem cores_cmp_spec :
    ∀ a b : List Nat, a ≠ [] → b ≠ [] → a.Nodup → b.Nodup →
      ((cores_cmp a b = 0 ↔ ∀ x ∈ a, x ∉ b) ∧
       (cores_cmp a b = 1 ↔ (a.length = b.length ∧ ∀ x, x ∈ a ↔ x ∈ b)) ∧
       (cores_cmp a b = -1 ↔ ((∃ x ∈ a, x ∈ b) ∧ ¬ ∀ x, x ∈ a ↔ x ∈ b))) := by
  intro a b hA hB ha hb
  have hcount := countMatches_nodup a b hb
  have f0 : countMatches a b = 0 ↔ ∀ x ∈ a, x ∉ b := by
    rw [hcount, List.length_eq_zero, List.filter_eq_nil_iff]
    simp
  have f1 : countMatches a b = a.length ↔ ∀ x ∈ a, x ∈ b := by
    rw [hcount]
    constructor
    · intro hlen
      have hsub : (a.filter (fun x => decide (x ∈ b))).Sublist a := List.filter_sublist a
      have hfe := hsub.eq_of_length hlen
      intro x hx
      simpa using List.filter_eq_self.mp hfe x hx
    · intro hsub
      rw [List.filter_eq_self.mpr (by intro x hx; simpa using hsub x hx)]
  have f2 : (∀ x ∈ a, x ∈ b) → a.length = b.length → ∀ x, x ∈ a ↔ x ∈ b := by
    intro hsub hlen
    have hsp : a.Subperm b := List.subperm_of_subset ha hsub
    have hperm : a.Perm b := hsp.perm_of_length_le (by omega)
    exact fun x => hperm.mem_iff
  have f3 : (∀ x, x ∈ a ↔ x ∈ b) → a.length = b.length := by
    intro hiff
    have h1 : a.Subperm b := List.subperm_of_subset ha (fun x hx => (hiff x).mp hx)
    have h2 : b.Subperm a := List.subperm_of_subset hb (fun x hx => (hiff x).mpr hx)
    exact Nat.le_antisymm h1.length_le h2.length_le
  have hApos : 0 < a.length := List.length_pos.mpr hA
  by_cases hF : countMatches a b = 0
  · have hc : cores_cmp a b = 0 := by rw [cores_cmp_eq, if_pos hF]
    refine ⟨⟨fun _ => f0.mp hF, fun _ => hc⟩, ?_, ?_⟩
    · constructor
      · intro h1; rw [hc] at h1; exact absurd h1 (by decide)
      · intro hP
        exfalso
        have hsub : ∀ x ∈ a, x ∈ b := fun x hx => (hP.2 x).mp hx
        have := f1.mpr hsub
        omega
    · constructor
      · intro h1; rw [hc] at h1; exact absurd h1 (by decide)
      · intro hP
        exfalso
        obtain ⟨⟨x, hxA, hxB⟩, _⟩ := hP
        exact (f0.mp hF) x hxA hxB
  · by_cases hEq : a.length = b.length ∧ b.length = countMatches a b
    · have hc : cores_cmp a b = 1 := by rw [cores_cmp_eq, if_neg hF, if_pos hEq]
      have hiff : ∀ x, x ∈ a ↔ x ∈ b := by
        have hFA : countMatches a b = a.length := by omega
        exact f2 (f1.mp hFA) hEq.1
      refine ⟨?_, ⟨fun _ => ⟨hEq.1, hiff⟩, fun _ => hc⟩, ?_⟩
      · constructor
        · intro h0; rw [hc] at h0; exact absurd h0 (by decide)
        · intro hP; exact absurd (f0.mpr hP) hF
      · constructor
        · intro hm; rw [hc] at hm; exact absurd hm (by decide)
        · intro hP; exact absurd hiff hP.2
    · have hc : cores_cmp a b = -1 := by rw [cores_cmp_eq, if_neg hF, if_neg hEq]
      refine ⟨?_, ?_, ⟨fun _ => ?_, fun _ => hc⟩⟩
      · constructor
        · intro h0; rw [hc] at h0; exact absurd h0 (by decide)
        · intro hP; exact absurd (f0.mpr hP) hF
      · constructor
        · intro h1; rw [hc] at h1; exact absurd h1 (by decide)
        · intro hP
          exfalso
          apply hEq
          have hsub : ∀ x ∈ a, x ∈ b := fun x hx => (hP.2 x).mp hx
          have hFA := f1.mpr hsub
          exact ⟨hP.1, by omega⟩
      · constructor
        · by_contra hno
          push_neg at hno
          exact hF (f0.mpr hno)
        · intro hiff
          apply hEq
          have hlen := f3 hiff
          have hsub : ∀ x ∈ a, x ∈ b := fun x hx => (hiff x).mp hx
          have hFA := f1.mpr hsub
          exact ⟨hlen, by omega⟩

/-- C8: on two groups with non-empty duplicate-free core sets, `cgroup_cmp`
returns 0 (Disjoint) exactly when no core is shared, 1 (Identical) exactly
when the sizes agree and the groups have the same members, and -1
(PartialOverlap) exactly when some core is shared but the member sets
differ. -/
theorem cgroup_cmp_classification :
    ∀ a b : rdtmon_core_group,
      a.cores ≠ [] → b.cores ≠ [] → a.cores.Nodup → b.cores.Nodup →
      ((cgroup_cmp a b = 0 ↔ ∀ x ∈ a.cores, x ∉ b.cores) ∧
       (cgroup_cmp a b = 1 ↔
         (a.cores.length = b.cores.length ∧ ∀ x, x ∈ a.cores ↔ x ∈ b.cores)) ∧
       (cgroup_cmp a b = -1 ↔
         ((∃ x ∈ a.cores, x ∈ b.cores) ∧ ¬ ∀ x, x ∈ a.cores ↔ x ∈ b.cores))) := by
  intro a b h1 h2 h3 h4
  exact cores_cmp_spec a.cores b.cores h1 h2 h3 h4

/-- Witness for C8: the spec's PartialOverlap example, cores 0-1 against
cores 1-2. -/
theorem cgroup_cmp_classification_w :
    cgroup_cmp { desc := ['a'], cores := [0, 1], events := 0 }
      { desc := ['b'], cores := [1, 2], events := 0 } = -1 :=
  (cgroup_cmp_classification
      { desc := ['a'], cores := [0, 1], events := 0 }
      { desc := ['b'], cores := [1, 2], events := 0 }
      (by decide) (by decide) (by decide) (by decide)).2.2.mpr
    ⟨⟨1, by decide, by decide⟩,
     fun hiff => absurd ((hiff 0).mp (by decide)) (by decide)⟩

/-- The dedup insertion grows the accumulator by at most one and never
shrinks it. -/
theorem insertVal_length (acc : List Nat) (v : Nat) :
    acc.length ≤ (insertVal acc v).length ∧ (insertVal acc v).length ≤ acc.length + 1 := by
  rw [insertVal]
  split
  · omega
  · simp

/-- Capacity invariant of the range-enumeration loop: starting strictly
below capacity, the early return fires exactly when the accumulator reaches
capacity. -/
theorem fillRange_inv :
    ∀ (fuel n : Nat) (acc : List Nat) (max : Nat), acc.length < max →
      (((fillRange fuel n acc max).2 = true → (fillRange fuel n acc max).1.length = max) ∧
       ((fillRange fuel n acc max).2 = false → (fillRange fuel n acc max).1.length < max)) := by
  intro fuel
  induction fuel with
  | zero =>
    intro n acc max h
    constructor
    · intro ht; simp [fillRange] at ht
    · intro _; simpa [fillRange] using h
  | succ f ih =>
    intro n acc max h
    rw [fillRange]
    by_cases hc : max ≤ (insertVal acc n).length
    · rw [if_pos hc]
      constructor
      · intro _
        have hins := (insertVal_length acc n).2
        simp only []
        omega
      · intro hf; simp at hf
    · rw [if_neg hc]
      exact ih (n + 1) (insertVal acc n) max (by omega)

/-- Capacity invariant of the full range loop with the wrap-around pass. -/
theorem enumRange_inv :
    ∀ (s e : Nat) (acc : List Nat) (max : Nat), acc.length < max →
      (((enumRange s e acc max).2 = true → (enumRange s e acc max).1.length = max) ∧
       ((enumRange s e acc max).2 = false → (enumRange s e acc max).1.length < max)) := by
  intro s e acc max h
  rw [enumRange]
  split
  · rcases hfr : fillRange (e + 1 - s) s acc max with ⟨acc2, b⟩
    cases b
    · have h2 : acc2.length < max := by
        have := (fillRange_inv (e + 1 - s) s acc max h).2
        rw [hfr] at this
        exact this rfl
      simpa using fillRange_inv (UINT64_MAX + 1) 0 acc2 max h2
    · have h1 : acc2.length = max := by
        have := (fillRange_inv (e + 1 - s) s acc max h).1
        rw [hfr] at this
        exact this rfl
      constructor
      · intro _; simpa using h1
      · intro hf; simp at hf
  · exact fillRange_inv (e + 1 - s) s acc max h

/-- Capacity invariant of one token step of `strlisttonums`. -/
theorem procToken_inv :
    ∀ (t : List Char) (acc : List Nat) (max : Nat) (acc2 : List Nat) (b : Bool),
      acc.length < max → procToken t acc max = tokRes.vals acc2 b →
      ((b = true → acc2.length = max) ∧ (b = false → acc2.length < max)) := by
  intro t acc max acc2 b h hp
  simp only [procToken] at hp
  by_cases h0 : t.dropWhile isspaceChar = []
  · simp only [if_pos h0] at hp
    exact tokRes.noConfusion hp
  · simp only [if_neg h0] at hp
    rcases hd : splitDash (t.dropWhile isspaceChar) with _ | ⟨l, r⟩
    · simp only [hd] at hp
      rcases hv : strtouint64 (t.dropWhile isspaceChar) with _ | v
      · simp only [hv] at hp
        exact tokRes.noConfusion hp
      · simp only [hv] at hp
        injection hp with h1 h2
        subst h1
        have hins1 := (insertVal_length acc v).1
        have hins2 := (insertVal_length acc v).2
        constructor
        · intro hb
          rw [hb] at h2
          have hle := of_decide_eq_true h2
          omega
        · intro hb
          rw [hb] at h2
          have hgt := of_decide_eq_false h2
          omega
    · simp only [hd] at hp
      rcases hl : strtouint64 l with _ | a
      · simp only [hl] at hp
        exact tokRes.noConfusion hp
      · simp only [hl] at hp
        rcases hr : strtouint64 r with _ | bb
        · simp only [hr] at hp
          exact tokRes.noConfusion hp
        · simp only [hr] at hp
          injection hp with h1 h2
          rw [← h1, ← h2]
          exact enumRange_inv (if bb < a then bb else a) (if bb < a then a else bb) acc max h

/-- Capacity invariant of the token loop: starting strictly below capacity,
a normal end stays below capacity, the capacity return ends exactly at
capacity, and a parse error reports the empty result. -/
theorem strlistGo_inv :
    ∀ (ts : List (List Char)) (acc : List Nat) (max : Nat), acc.length < max →
      (((strlistGo ts acc max).2 = pstatus.ok → (strlistGo ts acc max).1.length < max) ∧
       ((strlistGo ts acc max).2 = pstatus.full → (strlistGo ts acc max).1.length = max) ∧
       ((strlistGo ts acc max).2 = pstatus.fail → (strlistGo ts acc max).1 = [])) := by
  intro ts
  induction ts with
  | nil =>
    intro acc max h
    refine ⟨fun _ => h, fun hf => ?_, fun hf => ?_⟩
    · exact absurd hf (by simp [strlistGo])
    · exact absurd hf (by simp [strlistGo])
  | cons t ts ih =>
    intro acc max h
    rcases hp : procToken t acc max with _ | _ | ⟨acc2, b⟩
    · have heq : strlistGo (t :: ts) acc max = strlistGo ts acc max := by
        rw [strlistGo, hp]
      rw [heq]
      exact ih acc max h
    · have heq : strlistGo (t :: ts) acc max = ([], pstatus.fail) := by
        rw [strlistGo, hp]
      rw [heq]
      exact ⟨fun hc => by simp at hc, fun hc => by simp at hc, fun _ => rfl⟩
    · cases b
      · have heq : strlistGo (t :: ts) acc max = strlistGo ts acc2 max := by
          rw [strlistGo, hp]
        have hlt := (procToken_inv t acc max acc2 false h hp).2 rfl
        rw [heq]
        exact ih acc2 max hlt
      · have heq : strlistGo (t :: ts) acc max = (acc2, pstatus.full) := by
          rw [strlistGo, hp]
        have hm := (procToken_inv t acc max acc2 true h hp).1 rfl
        rw [heq]
        exact ⟨fun hc => by simp at hc, fun _ => hm, fun hc => by simp at hc⟩

/-- Once the token loop stopped — with the capacity return or a parse
error — any further tokens of the list are never examined. -/
theorem strlistGo_append_of_stop :
    ∀ (ts us : List (List Char)) (acc : List Nat) (max : Nat),
      ((strlistGo ts acc max).2 = pstatus.full ∨ (strlistGo ts acc max).2 = pstatus.fail) →
      strlistGo (ts ++ us) acc max = strlistGo ts acc max := by
  intro ts
  induction ts with
  | nil =>
    intro us acc max h
    rcases h with h | h <;> exact absurd h (by simp [strlistGo])
  | cons t ts ih =>
    intro us acc max h
    rcases hp : procToken t acc max with _ | _ | ⟨acc2, b⟩
    · have hL : strlistGo ((t :: ts) ++ us) acc max = strlistGo (ts ++ us) acc max := by
        rw [List.cons_append, strlistGo, hp]
      have hR : strlistGo (t :: ts) acc max = strlistGo ts acc max := by
        rw [strlistGo, hp]
      rw [hR] at h
      rw [hL, hR]
      exact ih us acc max h
    · have hL : strlistGo ((t :: ts) ++ us) acc max = ([], pstatus.fail) := by
        rw [List.cons_append, strlistGo, hp]
      have hR : strlistGo (t :: ts) acc max = ([], pstatus.fail) := by
        rw [strlistGo, hp]
      rw [hL, hR]
    · cases b
      · have hL : strlistGo ((t :: ts) ++ us) acc max = strlistGo (ts ++ us) acc2 max := by
          rw [List.cons_append, strlistGo, hp]
        have hR : strlistGo (t :: ts) acc max = strlistGo ts acc2 max := by
          rw [strlistGo, hp]
        rw [hR] at h
        rw [hL, hR]
        exact ih us acc2 max h
      · have hL : strlistGo ((t :: ts) ++ us) acc max = (acc2, pstatus.full) := by
          rw [List.cons_append, strlistGo, hp]
        have hR : strlistGo (t :: ts) acc max = (acc2, pstatus.full) := by
          rw [strlistGo, hp]
        rw [hL, hR]

/-- The token splitter always produces at least one piece. -/
theorem splitComma_ne_nil : ∀ s : List Char, splitComma s ≠ [] := by
  intro s
  cases s with
  | nil => simp [splitComma]
  | cons c cs =>
    simp only [splitComma]
    split
    · simp
    · split <;> simp

/-- Splitting a list with a comma inserted between two halves splits each
half separately. -/
theorem splitComma_append :
    ∀ (s t : List Char), splitComma (s ++ ',' :: t) = splitComma s ++ splitComma t := by
  intro s t
  induction s with
  | nil => simp [splitComma]
  | cons c cs ih =>
    by_cases hc : c = ','
    · subst hc
      simp [splitComma, ih]
    · have hb : (c == ',') = false := by simp [hc]
      rcases hcs : splitComma cs with _ | ⟨h1, tl⟩
      · exact absurd hcs (splitComma_ne_nil cs)
      · rw [hcs] at ih
        simp only [List.cons_append, splitComma, hb, Bool.false_eq_true, if_false,
          List.append_eq, ih, hcs]

/-- C7: with a positive capacity the parser never reports more values than
the capacity; and once it has reported exactly the capacity, appending
further tokens to the expression changes nothing — they are silently
dropped and the same partial result is returned as a success. -/
theorem strlisttonums_capacity :
    ∀ (s t : List Char) (max : Nat), 0 < max →
      (strlisttonums s max).length ≤ max ∧
      ((strlisttonums s max).length = max →
        strlisttonums (s ++ ',' :: t) max = strlisttonums s max) := by
  intro s t max hpos
  have hmax0 : ¬ max = 0 := by omega
  have hinv := strlistGo_inv (splitComma s) [] max (by simpa using hpos)
  constructor
  · rw [strlisttonums, if_neg hmax0]
    rcases hst : (strlistGo (splitComma s) [] max).2 with _ | _ | _
    · have := hinv.1 hst
      omega
    · have := hinv.2.2 hst
      rw [this]
      simp
    · have := hinv.2.1 hst
      omega
  · intro hlen
    rw [strlisttonums, if_neg hmax0] at hlen
    have hfull : (strlistGo (splitComma s) [] max).2 = pstatus.full := by
      rcases hst : (strlistGo (splitComma s) [] max).2 with _ | _ | _
      · have := hinv.1 hst
        omega
      · have := hinv.2.2 hst
        rw [this] at hlen
        simp at hlen
        omega
      · rfl
    have happ := strlistGo_append_of_stop (splitComma s) (splitComma t) [] max (Or.inl hfull)
    rw [strlisttonums, strlisttonums, if_neg hmax0, if_neg hmax0, splitComma_append, happ]

/-- Witness for C7: capacity 3 truncates the range `0-9` to three values,
and a further token `20` is dropped without error. -/
theorem strlisttonums_capacity_w :
    (strlisttonums ("0-9".toList) 3).length ≤ 3 ∧
      ((strlisttonums ("0-9".toList) 3).length = 3 →
        strlisttonums ("0-9".toList ++ ',' :: "20".toList) 3 =
          strlisttonums ("0-9".toList) 3) :=
  strlisttonums_capacity ("0-9".toList) ("20".toList) 3 (by decide)

/-- A bad token drives `procToken` into a parse error whatever the
accumulator and capacity. -/
theorem procToken_of_bad :
    ∀ (t : List Char) (acc : List Nat) (max : Nat),
      tokenBad t = true → procToken t acc max = tokRes.perr := by
  intro t acc max hb
  simp only [tokenBad, Bool.and_eq_true, decide_eq_true_eq] at hb
  obtain ⟨hne, hrest⟩ := hb
  simp only [procToken, if_neg hne]
  rcases hd : splitDash (t.dropWhile isspaceChar) with _ | ⟨l, r⟩
  · simp only [hd] at hrest ⊢
    rcases hv : strtouint64 (t.dropWhile isspaceChar) with _ | v
    · simp only [hv]
    · rw [hv] at hrest
      simp at hrest
  · simp only [hd] at hrest ⊢
    rcases hl : strtouint64 l with _ | a
    · simp only [hl]
    · rcases hr : strtouint64 r with _ | bb
      · simp only [hl, hr]
      · rw [hl, hr] at hrest
        simp at hrest

/-- If the loop has not stopped before reaching a bad token, the whole
parse fails with the empty result. -/
theorem strlistGo_bad_err :
    ∀ (pre post : List (List Char)) (bad : List Char) (acc : List Nat) (max : Nat),
      tokenBad bad = true → (strlistGo pre acc max).2 = pstatus.ok →
      strlistGo (pre ++ bad :: post) acc max = ([], pstatus.fail) := by
  intro pre
  induction pre with
  | nil =>
    intro post bad acc max hb _
    rw [List.nil_append, strlistGo, procToken_of_bad bad acc max hb]
  | cons t ts ih =>
    intro post bad acc max hb hok
    rcases hp : procToken t acc max with _ | _ | ⟨acc2, b⟩
    · have hL : strlistGo ((t :: ts) ++ bad :: post) acc max =
          strlistGo (ts ++ bad :: post) acc max := by
        rw [List.cons_append, strlistGo, hp]
      have hR : strlistGo (t :: ts) acc max = strlistGo ts acc max := by
        rw [strlistGo, hp]
      rw [hR] at hok
      rw [hL]
      exact ih post bad acc max hb hok
    · rw [strlistGo, hp] at hok
      simp at hok
    · cases b
      · have hL : strlistGo ((t :: ts) ++ bad :: post) acc max =
            strlistGo (ts ++ bad :: post) acc2 max := by
          rw [List.cons_append, strlistGo, hp]
        have hR : strlistGo (t :: ts) acc max = strlistGo ts acc2 max := by
          rw [strlistGo, hp]
        rw [hR] at hok
        rw [hL]
        exact ih post bad acc2 max hb hok
      · rw [strlistGo, hp] at hok
        simp at hok

/-- C6 counterexample: the expression `"1,abc"` contains the invalid token
`abc`, yet with capacity 1 the parser returns the non-empty partial result
`[1]` — the capacity return fires before the invalid token is reached. -/
theorem strlisttonums_invalid_cex :
    tokenBad ("abc".toList) = true ∧
      strlisttonums ("1,abc".toList) 1 = [1] ∧
      strlisttonums ("1,abc".toList) 1 ≠ [] := by
  decide

/-- C6 amended: an invalid token makes the whole parse fail with the empty
result — regardless of valid tokens before it — provided the token loop
actually reaches it, i.e. the capacity early-return has not already ended
the parse on the earlier tokens. -/
theorem strlisttonums_invalid_amended :
    ∀ (s : List Char) (pre post : List (List Char)) (bad : List Char) (max : Nat),
      splitComma s = pre ++ bad :: post →
      tokenBad bad = true →
      (strlistGo pre [] max).2 = pstatus.ok →
      strlisttonums s max = [] := by
  intro s pre post bad max hsplit hb hok
  rcases Nat.eq_zero_or_pos max with h0 | hpos
  · rw [strlisttonums, if_pos h0]
  · rw [strlisttonums, if_neg (by omega), hsplit,
      strlistGo_bad_err pre post bad [] max hb hok]

/-- Witness for C6 amended: at the caller's capacity 512 the invalid token
of `"1,abc"` is reached and the parse collapses to the empty result. -/
theorem strlisttonums_invalid_amended_w :
    strlisttonums ("1,abc".toList) 512 = [] :=
  strlisttonums_invalid_amended ("1,abc".toList) [['1']] [] ("abc".toList) 512
    (by decide) (by decide) (by decide)
